import Mathlib

/-!
Verification of the local SOC-matching engine of the Mapademics POC server
(tokenizer, inverted-index build, composite scoring, top-N ranking, and the
optional AI-ranking side channel with its enrichment and failure fallback).

The engine is embedded shallowly:

* JavaScript strings are Lean strings; the ASCII-relevant fragment of
  toLowerCase and of the regular expressions used by the tokenizer is
  modelled character by character.
* JavaScript Map and Set (which preserve insertion order) are modelled as
  association lists and duplicate-free lists, with update-in-place
  semantics for Map.set on an existing key.
* Numeric scores are elements of an arbitrary linearly ordered field K and
  the transcendental Math.log is an explicit parameter lg : K → K, so every
  theorem below quantifies over the score field and the logarithm; the
  running JavaScript program is the instance K = ℝ, lg = Real.log.  For
  concrete evaluation the computable instance K = ℚ with the strictly
  monotone function logLin (which agrees with the natural logarithm at 1,
  the only rational point where the natural logarithm is rational) is used.
* Array.prototype.sort with comparator (a, b) => b[1] - a[1] is a stable
  descending sort; a stable sort is extensionally determined by the
  comparator, and it is modelled by a structural insertion sort for which
  sortedness and stability are proved below.
* The external OpenAI call is effectful; its observable outcome is modelled
  by the inductive AICallResult (exception thrown / no JSON array found in
  the response text / successfully parsed list of triples).
-/

/-- Lower-cases an ASCII letter, leaving every other character unchanged;
models the action of JavaScript toLowerCase on the characters relevant to
the engine. -/
def toLowerCharJ (c : Char) : Char :=
  if 'A' ≤ c ∧ c ≤ 'Z' then Char.ofNat (c.toNat + 32) else c

/-- Character class of the regex a-z0-9 used by the tokenizer. -/
def isWordCharJ (c : Char) : Bool :=
  ('a' ≤ c ∧ c ≤ 'z') ∨ ('0' ≤ c ∧ c ≤ '9')

/-- ASCII whitespace as matched by the regex class for spaces. -/
def isSpaceJ (c : Char) : Bool :=
  c = ' ' ∨ c = '\t' ∨ c = '\n' ∨ c = '\r' ∨ c = '\x0b' ∨ c = '\x0c'

/-- Lower-case a whole string, character by character. -/
def strLowerJ (s : String) : String :=
  String.mk (s.data.map toLowerCharJ)

/-- Replace every character that is neither a word character nor whitespace
by a space; models the replace step of the tokenizer. -/
def normalizeChars (cs : List Char) : List Char :=
  cs.map (fun c => if isWordCharJ c ∨ isSpaceJ c then c else ' ')

/-- Split a character list into maximal runs of non-whitespace characters.
JavaScript split on a whitespace regex can also emit empty fragments at the
borders, but those are removed by the length filter of the tokenizer, so
the two readings of the split agree after filtering. -/
def splitRuns : List Char → List Char → List String
  | [], acc => if acc = [] then [] else [String.mk acc.reverse]
  | c :: cs, acc =>
    if isSpaceJ c then
      (if acc = [] then [] else [String.mk acc.reverse]) ++ splitRuns cs []
    else splitRuns cs (c :: acc)

/-- Stop-word list of the engine, transcribed verbatim from the source. -/
def STOP_WORDS : List String :=
  ["the", "and", "for", "are", "but", "not", "you", "all", "can", "had",
   "her", "was", "one", "our", "out", "has", "have", "from", "with", "they",
   "been", "this", "that", "will", "each", "make", "like", "than", "them",
   "then", "its", "over", "such", "other", "into", "more", "some", "very",
   "when", "what", "also", "only", "just", "about", "which"]

/-- Tokenizer of the engine: lower-case, normalize to word characters and
spaces, split on whitespace runs, keep tokens of length at least three that
are not stop words. -/
def tokenize (text : String) : List String :=
  (splitRuns (normalizeChars ((strLowerJ text).data)) []).filter
    (fun w => decide (w.length > 2) && !STOP_WORDS.contains w)

/-- Underscore-joined adjacent pairs of a token sequence. -/
def bigramsOf (tokens : List String) : List String :=
  (tokens.zip tokens.tail).map (fun p => p.1 ++ "_" ++ p.2)

/-- Decides whether the first list is a prefix of the second. -/
def isPrefixChars : List Char → List Char → Bool
  | [], _ => true
  | _ :: _, [] => false
  | c :: cs, d :: ds => c = d && isPrefixChars cs ds

/-- Decides whether the needle occurs contiguously inside the haystack. -/
def includesChars (needle : List Char) : List Char → Bool
  | [] => isPrefixChars needle []
  | c :: hs => isPrefixChars needle (c :: hs) || includesChars needle hs

/-- Models haystack.includes(needle) on JavaScript strings. -/
def jsIncludes (hay needle : String) : Bool :=
  includesChars needle.data hay.data

/-- Association lists standing for JavaScript Map objects, which preserve
key insertion order. -/
abbrev JMap (β : Type) := List (String × β)

/-- Lookup of the first binding of a key; models Map.prototype.get. -/
def mapGet {β : Type} : JMap β → String → Option β
  | [], _ => none
  | p :: ps, k => if p.1 = k then some p.2 else mapGet ps k

/-- Lookup with a default; models the pattern map.get(k) or-else d. -/
def mapGetD {β : Type} (m : JMap β) (k : String) (d : β) : β :=
  (mapGet m k).getD d

/-- Update the binding of a key in place if present, append it otherwise;
models Map.prototype.set, which keeps the original insertion position of an
existing key. -/
def mapSet {β : Type} : JMap β → String → β → JMap β
  | [], k, v => [(k, v)]
  | p :: ps, k, v => if p.1 = k then (k, v) :: ps else p :: mapSet ps k v

/-- Add an element to an insertion-ordered duplicate-free list; models
Set.prototype.add. -/
def setAdd (s : List String) (c : String) : List String :=
  if c ∈ s then s else s ++ [c]

/-- Occupation entry of the taxonomy; the three group labels are optional
in the underlying JSON. -/
structure SocEntry where
  code : String
  title : String
  majorGroup : Option String
  minorGroup : Option String
  broadGroup : Option String
deriving DecidableEq

/-- Models the JavaScript idiom value-or-empty-string applied to an
optional field (absent and empty both yield the empty string). -/
def jsOrEmpty (o : Option String) : String :=
  o.getD ""

/-- Combined text of an entry as concatenated in the index build loop. -/
def entryText (soc : SocEntry) : String :=
  soc.title ++ " " ++ jsOrEmpty soc.majorGroup ++ " " ++ jsOrEmpty soc.minorGroup
    ++ " " ++ jsOrEmpty soc.broadGroup

/-- Insert one code under one token of the inverted index; creates the
entry set on first use, then adds the code to it. -/
def indexAdd (idx : JMap (List String)) (token code : String) : JMap (List String) :=
  mapSet idx token (setAdd (mapGetD idx token []) code)

/-- Unigram and bigram keys contributed by one entry to the index. -/
def entryTokenKeys (soc : SocEntry) : List String :=
  tokenize (entryText soc) ++ bigramsOf (tokenize (entryText soc))

/-- Build of the inverted index over all entries, in taxonomy order. -/
def buildSocIndex (entries : List SocEntry) : JMap (List String) :=
  entries.foldl
    (fun idx soc => (entryTokenKeys soc).foldl (fun idx token => indexAdd idx token soc.code) idx)
    []

/-- Build of the code-to-entry map; a duplicated code is overwritten by the
later entry, as Map.prototype.set does. -/
def buildSocByCode (entries : List SocEntry) : JMap SocEntry :=
  entries.foldl (fun m soc => mapSet m soc.code soc) []

/-- Caller-supplied query record; every field may be absent. -/
structure ProgramData where
  name : Option String
  longName : Option String
  code : Option String
  cipCode : Option String
  type : Option String
  degreeDesignation : Option String
  college : Option String
  level : Option String
deriving DecidableEq

/-- Join non-empty strings with single spaces; models Array.join. -/
def joinSpace : List String → String
  | [] => ""
  | [s] => s
  | s :: rest => s ++ " " ++ joinSpace rest

/-- Query text: the six query fields in the fixed order of the source with
absent and empty fields dropped, joined by spaces. -/
def queryTextOf (pd : ProgramData) : String :=
  joinSpace
    ((([pd.longName, pd.name, pd.type, pd.degreeDesignation, pd.college, pd.level].filterMap id).filter
      (fun s => s ≠ "")))

section Scoring

variable {K : Type} [LinearOrderedField K] [FloorRing K]

/-- Add one weight to the accumulated score of every code of a list,
inserting codes not yet present; models the inner accumulation loop over a
code set of the index. -/
def addWeightAll (scores : JMap K) (codes : List String) (w : K) : JMap K :=
  codes.foldl (fun sc code => mapSet sc code (mapGetD sc code 0 + w)) scores

/-- Unigram scoring pass: every query token present in the index
contributes the weight lg of total entry count over document frequency to
each code of its set. -/
def unigramPass (lg : K → K) (idx : JMap (List String)) (total : Nat)
    (init : JMap K) (toks : List String) : JMap K :=
  toks.foldl
    (fun scores token =>
      match mapGet idx token with
      | none => scores
      | some ms => addWeightAll scores ms (lg ((total : K) / (ms.length : K))))
    init

/-- Bigram scoring pass: identical to the unigram pass with the computed
weight doubled. -/
def bigramPass (lg : K → K) (idx : JMap (List String)) (total : Nat)
    (init : JMap K) (bgs : List String) : JMap K :=
  bgs.foldl
    (fun scores bigram =>
      match mapGet idx bigram with
      | none => scores
      | some ms => addWeightAll scores ms (lg ((total : K) / (ms.length : K)) * 2))
    init

/-- Contribution of a single query token to the accumulated score of one
code: zero when the token is not an index key or the code is not in its
set, and otherwise the weight lg of total entry count over document
frequency; the bigram pass accumulates exactly this contribution doubled. -/
def uniContrib (lg : K → K) (idx : JMap (List String)) (total : Nat) (c : String)
    (t : String) : K :=
  match mapGet idx t with
  | none => 0
  | some ms => if c ∈ ms then lg ((total : K) / (ms.length : K)) else 0

/-- Number of title tokens of an entry occurring as substrings of the
lowercased query text. -/
def titleHits (queryLower : String) (soc : SocEntry) : Nat :=
  ((tokenize soc.title).filter (fun t => jsIncludes queryLower t)).length

/-- Title-substring bonus pass over every entry of the taxonomy: a nonzero
hit count adds hit ratio times ten to the accumulated score of the entry
code, inserting the code if it was never scored by the index passes. -/
def titlePass (queryLower : String) (init : JMap K) (entries : List SocEntry) : JMap K :=
  entries.foldl
    (fun scores soc =>
      if 0 < titleHits queryLower soc then
        mapSet scores soc.code
          (mapGetD scores soc.code 0 +
            ((titleHits queryLower soc : K) / (((tokenize soc.title).length : Nat) : K)) * 10)
      else scores)
    init

/-- Accumulated score map after the unigram and bigram passes. -/
def uniBigramScores (lg : K → K) (entries : List SocEntry) (pd : ProgramData) : JMap K :=
  bigramPass lg (buildSocIndex entries) entries.length
    (unigramPass lg (buildSocIndex entries) entries.length [] (tokenize (queryTextOf pd)))
    (bigramsOf (tokenize (queryTextOf pd)))

/-- Accumulated score map after all three passes. -/
def accumScores (lg : K → K) (entries : List SocEntry) (pd : ProgramData) : JMap K :=
  titlePass (strLowerJ (queryTextOf pd)) (uniBigramScores lg entries pd) entries

/-- Insert a pair into a descending-sorted list, before the first element
whose score is not larger; together with sortByScoreDesc this realizes the
stable descending sort of the comparator b minus a on scores. -/
def insertDesc (p : String × K) : List (String × K) → List (String × K)
  | [] => [p]
  | q :: qs => if q.2 ≤ p.2 then p :: q :: qs else q :: insertDesc p qs

/-- Stable sort by strictly descending score; ties keep their original
relative order, as the stable JavaScript Array.prototype.sort does. -/
def sortByScoreDesc : List (String × K) → List (String × K)
  | [] => []
  | p :: ps => insertDesc p (sortByScoreDesc ps)

/-- Models Array.prototype.slice(0, e): a nonnegative end index keeps the
first e elements, a negative end index drops the last -e elements. -/
def jsSlice0 {α : Type} (l : List α) (e : Int) : List α :=
  if 0 ≤ e then l.take e.toNat else l.take ((l.length + e).toNat)

/-- Rounding of a score to two decimal places, as round of a hundred times
the score divided by a hundred. -/
def roundTo2 (s : K) : K :=
  ((round (s * 100) : ℤ) : K) / 100

/-- Result item of the local matcher: the looked-up entry fields together
with the rounded relevance score. -/
structure ScoredMatch (K : Type) where
  entry? : Option SocEntry
  relevanceScore : K
deriving DecidableEq

/-- Local SOC matcher: tokenize the query, run the three scoring passes,
sort by score descending with insertion-order ties, slice to the first topN
pairs and enrich each code from the code-to-entry map. -/
def matchSocCodes (lg : K → K) (entries : List SocEntry) (pd : ProgramData) (topN : Int) :
    List (ScoredMatch K) :=
  (jsSlice0 (sortByScoreDesc (accumScores lg entries pd)) topN).map
    (fun p => { entry? := mapGet (buildSocByCode entries) p.1, relevanceScore := roundTo2 p.2 })

end Scoring

/-- Triple returned by the external AI ranking strategy. -/
structure AITriple where
  code : String
  title : String
  reason : String
deriving DecidableEq

/-- Enriched AI match merged into the common result shape. -/
structure AIMatch where
  code : String
  title : String
  majorGroup : String
  minorGroup : String
  broadGroup : String
  reason : String
  source : String
  verified : Bool
deriving DecidableEq

/-- Observable outcome of the external AI call: the fetch or the JSON parse
threw (caught by the surrounding try), or the response text contained no
JSON array, or a list of triples was parsed successfully. -/
inductive AICallResult where
  | thrown
  | noJsonArray
  | parsed (ms : List AITriple)
deriving DecidableEq

/-- Models the JavaScript or-operator on an optional string against a
string default: absent and empty both fall through to the default. -/
def jsOrStr (a : Option String) (b : String) : String :=
  match a with
  | none => b
  | some s => if s = "" then b else s

/-- Models the JavaScript or-operator between two optional strings. -/
def jsOrOpt (a b : Option String) : Option String :=
  match a with
  | none => b
  | some s => if s = "" then b else some s

/-- Enrichment of one external triple against the local code-to-entry map:
a found code takes the local title and group labels (with the or-empty
fallbacks of the source) and is flagged verified. -/
def enrichAIMatch (byCode : JMap SocEntry) (m : AITriple) : AIMatch :=
  let found := mapGet byCode m.code
  { code := m.code
    title := jsOrStr (found.map (fun e => e.title)) m.title
    majorGroup := jsOrStr (found.bind (fun e => e.majorGroup)) ""
    minorGroup := jsOrStr (found.bind (fun e => e.minorGroup)) ""
    broadGroup := jsOrStr (found.bind (fun e => e.broadGroup)) ""
    reason := m.reason
    source := "ai"
    verified := found.isSome }

/-- AI-powered matcher: absent key yields null before any call; a thrown
error or a response without a JSON array also yields null; a parsed triple
list is enriched entry by entry.  The prompt construction and the network
request itself are external effects summarized by the AICallResult
argument. -/
def matchSocCodesWithAI (hasKey : Bool) (byCode : JMap SocEntry)
    (callResult : AICallResult) : Option (List AIMatch) :=
  if hasKey = false then none
  else
    match callResult with
    | .thrown => none
    | .noJsonArray => none
    | .parsed ms => some (ms.map (enrichAIMatch byCode))

/-- Response shape of the match endpoint. -/
structure MatchResponse (K : Type) where
  programName : Option String
  programCode : Option String
  programCipCode : Option String
  localMatches : List (ScoredMatch K)
  aiMatches : Option (List AIMatch)
  aiAvailable : Bool
deriving DecidableEq

/-- Handler of the match endpoint: a missing program object is a request
error; otherwise the local matcher always runs, and the AI matcher runs
only when requested and a key is configured, its result (possibly null)
riding alongside the local list. -/
def socMatchHandler {K : Type} [LinearOrderedField K] [FloorRing K] (lg : K → K)
    (entries : List SocEntry) (hasKey : Bool) (program? : Option ProgramData)
    (topN : Int) (useAI : Bool) (callResult : AICallResult) :
    Except String (MatchResponse K) :=
  match program? with
  | none => Except.error "program object is required"
  | some program =>
    Except.ok
      { programName := jsOrOpt program.longName program.name
        programCode := program.code
        programCipCode := program.cipCode
        localMatches := matchSocCodes lg entries program topN
        aiMatches :=
          if useAI && hasKey then matchSocCodesWithAI hasKey (buildSocByCode entries) callResult
          else none
        aiAvailable := hasKey }

/-- Computable stand-in for the natural logarithm used to instantiate the
parametric theorems and counterexamples at rational inputs: it agrees with
the natural logarithm at 1 (the only point where the natural logarithm of a
rational is rational), is strictly monotone, and is zero exactly at 1 —
the properties of Math.log the engine relies on. -/
def logLin (q : ℚ) : ℚ :=
  q - 1

/-- Taxonomy fixture: an entry whose only index keys come from its title. -/
def entXyz : SocEntry :=
  ⟨"11-1111", "Xyz", none, none, none⟩

/-- Taxonomy fixture: a second entry with a disjoint title. -/
def entAbc : SocEntry :=
  ⟨"13-1111", "Abc", none, none, none⟩

/-- Taxonomy fixture: an entry sharing the group label Healthcare. -/
def entHealthA : SocEntry :=
  ⟨"11-1111", "Xyz", some "Healthcare", none, none⟩

/-- Taxonomy fixture: a second entry sharing the group label Healthcare. -/
def entHealthB : SocEntry :=
  ⟨"13-1111", "Abc", some "Healthcare", none, none⟩

/-- Taxonomy fixture: the registered-nurses entry of the specification
scenarios. -/
def entNurse : SocEntry :=
  ⟨"29-1141", "Registered Nurses", some "Healthcare", none, none⟩

/-- Query fixture whose name field covers both fixture titles. -/
def pdXyzAbc : ProgramData :=
  ⟨some "xyz abc", none, none, none, none, none, none, none⟩

/-- Query fixture hitting only the shared group-label token. -/
def pdHealthcare : ProgramData :=
  ⟨some "Healthcare", none, none, none, none, none, none, none⟩

/-- Query fixture equal to the registered-nurses title verbatim. -/
def pdNurse : ProgramData :=
  ⟨some "Registered Nurses", none, none, none, none, none, none, none⟩

/-- Query fixture with every field absent. -/
def pdBlank : ProgramData :=
  ⟨none, none, none, none, none, none, none, none⟩

theorem mapGet_mapSet_self {β : Type} (m : JMap β) (k : String) (v : β) :
    mapGet (mapSet m k v) k = some v := by
  induction m with
  | nil => simp [mapSet, mapGet]
  | cons p ps ih =>
    by_cases h : p.1 = k
    · simp [mapSet, h, mapGet]
    · simp [mapSet, h, mapGet, ih]

theorem mapGet_mapSet_ne {β : Type} (m : JMap β) {k k' : String} (v : β) (h : k' ≠ k) :
    mapGet (mapSet m k v) k' = mapGet m k' := by
  induction m with
  | nil => simp [mapSet, mapGet, Ne.symm h]
  | cons p ps ih =>
    by_cases hp : p.1 = k
    · subst hp
      simp [mapSet, mapGet, Ne.symm h]
    · simp [mapSet, hp, mapGet, ih]

theorem mapGet_mapSet_cases {β : Type} (m : JMap β) {k k' : String} (v : β) {w : β}
    (h : mapGet (mapSet m k v) k' = some w) : (k' = k ∧ w = v) ∨ mapGet m k' = some w := by
  by_cases hk : k' = k
  · subst hk
    rw [mapGet_mapSet_self] at h
    exact Or.inl ⟨rfl, (Option.some_inj.mp h).symm⟩
  · rw [mapGet_mapSet_ne m v hk] at h
    exact Or.inr h

theorem isSome_mapGet_mapSet {β : Type} (m : JMap β) {k k' : String} (v : β)
    (h : (mapGet (mapSet m k v) k').isSome) : k' = k ∨ (mapGet m k').isSome := by
  by_cases hk : k' = k
  · exact Or.inl hk
  · rw [mapGet_mapSet_ne m v hk] at h
    exact Or.inr h

theorem isSome_mapGet_mapSet_of {β : Type} (m : JMap β) {k' : String} (k : String) (v : β)
    (h : (mapGet m k').isSome) : (mapGet (mapSet m k v) k').isSome := by
  by_cases hk : k' = k
  · subst hk
    rw [mapGet_mapSet_self]
    rfl
  · rwa [mapGet_mapSet_ne m v hk]

theorem isSome_mapGet_of_mem {β : Type} {m : JMap β} {k : String} {v : β}
    (h : (k, v) ∈ m) : (mapGet m k).isSome := by
  induction m with
  | nil => cases h
  | cons p ps ih =>
    by_cases hp : p.1 = k
    · simp [mapGet, hp]
    · rcases List.mem_cons.mp h with h | h
      · exact absurd (congrArg Prod.fst h).symm hp
      · simpa [mapGet, hp] using ih h

section SortLemmas

variable {K : Type} [LinearOrderedField K]

theorem insertDesc_perm (p : String × K) (l : List (String × K)) :
    List.Perm (insertDesc p l) (p :: l) := by
  induction l with
  | nil => simp [insertDesc]
  | cons q qs ih =>
    by_cases h : q.2 ≤ p.2
    · simp [insertDesc, h]
    · simpa [insertDesc, h] using (ih.cons q).trans (List.Perm.swap p q qs)

theorem sortByScoreDesc_perm (l : List (String × K)) : List.Perm (sortByScoreDesc l) l := by
  induction l with
  | nil => simp [sortByScoreDesc]
  | cons p ps ih => exact (insertDesc_perm p (sortByScoreDesc ps)).trans (ih.cons p)

theorem insertDesc_sorted {l : List (String × K)} (p : String × K)
    (h : l.Pairwise (fun a b => b.2 ≤ a.2)) :
    (insertDesc p l).Pairwise (fun a b => b.2 ≤ a.2) := by
  induction l with
  | nil => simp [insertDesc]
  | cons q qs ih =>
    rcases List.pairwise_cons.mp h with ⟨hq, hqs⟩
    by_cases hcmp : q.2 ≤ p.2
    · rw [insertDesc, if_pos hcmp]
      refine List.pairwise_cons.mpr ⟨?_, h⟩
      intro x hx
      rcases List.mem_cons.mp hx with rfl | hx
      · exact hcmp
      · exact le_trans (hq x hx) hcmp
    · rw [insertDesc, if_neg hcmp]
      refine List.pairwise_cons.mpr ⟨?_, ih hqs⟩
      intro x hx
      rcases List.mem_cons.mp ((insertDesc_perm p qs).mem_iff.mp hx) with rfl | hx
      · exact le_of_lt (lt_of_not_le hcmp)
      · exact hq x hx

theorem sortByScoreDesc_sorted (l : List (String × K)) :
    (sortByScoreDesc l).Pairwise (fun a b => b.2 ≤ a.2) := by
  induction l with
  | nil => simp [sortByScoreDesc]
  | cons p ps ih => exact insertDesc_sorted p ih

theorem insertDesc_filter_eq (p : String × K) (l : List (String × K)) (s : K) :
    (insertDesc p l).filter (fun q => decide (q.2 = s)) =
      if p.2 = s then p :: l.filter (fun q => decide (q.2 = s))
      else l.filter (fun q => decide (q.2 = s)) := by
  induction l with
  | nil => by_cases h : p.2 = s <;> simp [insertDesc, List.filter, h]
  | cons q qs ih =>
    by_cases hcmp : q.2 ≤ p.2
    · rw [insertDesc, if_pos hcmp]
      by_cases hp : p.2 = s <;> simp [List.filter_cons, hp]
    · rw [insertDesc, if_neg hcmp]
      have hq : q.2 ≠ s ∨ p.2 ≠ s := by
        by_cases hp : p.2 = s
        · subst hp
          exact Or.inl (fun hqs => hcmp (le_of_eq hqs))
        · exact Or.inr hp
      by_cases hp : p.2 = s
      · have hqs : ¬ q.2 = s := by
          rcases hq with h | h
          · exact h
          · exact absurd hp h
        simp [List.filter_cons, hqs, ih, hp]
      · by_cases hqs : q.2 = s <;> simp [List.filter_cons, hqs, ih, hp]

theorem sortByScoreDesc_filter_eq (l : List (String × K)) (s : K) :
    (sortByScoreDesc l).filter (fun q => decide (q.2 = s)) =
      l.filter (fun q => decide (q.2 = s)) := by
  induction l with
  | nil => simp [sortByScoreDesc]
  | cons p ps ih =>
    rw [sortByScoreDesc, insertDesc_filter_eq]
    by_cases hp : p.2 = s <;> simp [List.filter_cons, hp, ih]

theorem jsSlice0_sublist {α : Type} (l : List α) (e : Int) : List.Sublist (jsSlice0 l e) l := by
  rw [jsSlice0]
  by_cases h : 0 ≤ e <;> simp [h, List.take_sublist]

theorem jsSlice0_length_nonneg {α : Type} (l : List α) {e : Int} (h : 0 ≤ e) :
    (jsSlice0 l e).length = min e.toNat l.length := by
  simp [jsSlice0, h]

theorem jsSlice0_length_neg {α : Type} (l : List α) {e : Int} (h : e < 0) :
    (jsSlice0 l e).length = ((l.length : Int) + e).toNat := by
  rw [jsSlice0, if_neg (not_le.mpr h), List.length_take]
  omega

theorem roundTo2_mono [FloorRing K] {s t : K} (h : s ≤ t) : roundTo2 s ≤ roundTo2 t := by
  rw [roundTo2, roundTo2]
  refine (div_le_div_right (by norm_num)).mpr ?_
  refine Int.cast_le.mpr ?_
  rw [round_eq, round_eq]
  refine Int.floor_mono ?_
  have := mul_le_mul_of_nonneg_right h (by norm_num : (0 : K) ≤ 100)
  linarith

end SortLemmas

theorem setAdd_nodup {s : List String} (h : s.Nodup) (c : String) : (setAdd s c).Nodup := by
  rw [setAdd]
  split
  · exact h
  · next hmem => simp [List.nodup_append, h, hmem]

theorem mem_setAdd {s : List String} {c x : String} : x ∈ setAdd s c ↔ x ∈ s ∨ x = c := by
  rw [setAdd]
  split
  · next hmem =>
    constructor
    · exact Or.inl
    · intro h
      rcases h with h | rfl
      · exact h
      · exact hmem
  · simp

section PassLemmas

variable {K : Type} [LinearOrderedField K]

theorem mapGetD_addWeightAll (sc : JMap K) {cs : List String} (w : K) (c : String)
    (h : cs.Nodup) :
    mapGetD (addWeightAll sc cs w) c 0 = mapGetD sc c 0 + if c ∈ cs then w else 0 := by
  induction cs generalizing sc with
  | nil => simp [addWeightAll]
  | cons c0 rest ih =>
    rcases List.nodup_cons.mp h with ⟨hc0, hrest⟩
    have hstep : addWeightAll sc (c0 :: rest) w
        = addWeightAll (mapSet sc c0 (mapGetD sc c0 0 + w)) rest w := rfl
    rw [hstep, ih _ hrest]
    by_cases hc : c = c0
    · subst hc
      have : c ∉ rest := hc0
      simp [mapGetD, mapGet_mapSet_self, this]
    · rw [mapGetD, mapGet_mapSet_ne sc _ hc]
      simp [mapGetD, hc]

theorem isSome_mapGet_addWeightAll (sc : JMap K) (cs : List String) (w : K) (c : String) :
    (mapGet (addWeightAll sc cs w) c).isSome ↔ ((mapGet sc c).isSome ∨ c ∈ cs) := by
  induction cs generalizing sc with
  | nil => simp [addWeightAll]
  | cons c0 rest ih =>
    have hstep : addWeightAll sc (c0 :: rest) w
        = addWeightAll (mapSet sc c0 (mapGetD sc c0 0 + w)) rest w := rfl
    rw [hstep, ih]
    by_cases hc : c = c0
    · subst hc
      simp [mapGet_mapSet_self]
    · rw [mapGet_mapSet_ne sc _ hc]
      simp [hc]

theorem mapGetD_unigramPass (lg : K → K) {idx : JMap (List String)} (total : Nat)
    (hidx : ∀ t ms, mapGet idx t = some ms → ms.Nodup) (c : String) :
    ∀ (toks : List String) (init : JMap K),
      mapGetD (unigramPass lg idx total init toks) c 0 =
        mapGetD init c 0 + ((toks.map (uniContrib lg idx total c)).sum)
  | [], init => by simp [unigramPass]
  | t :: ts, init => by
    rw [List.map_cons, List.sum_cons]
    cases hmg : mapGet idx t with
    | none =>
      have hstep : unigramPass lg idx total init (t :: ts)
          = unigramPass lg idx total init ts := by
        simp [unigramPass, hmg]
      rw [hstep, mapGetD_unigramPass lg total hidx c ts init]
      simp [uniContrib, hmg]
    | some ms =>
      have hstep : unigramPass lg idx total init (t :: ts)
          = unigramPass lg idx total
              (addWeightAll init ms (lg ((total : K) / (ms.length : K)))) ts := by
        simp [unigramPass, hmg]
      rw [hstep, mapGetD_unigramPass lg total hidx c ts _,
        mapGetD_addWeightAll _ _ _ (hidx t ms hmg)]
      by_cases hcm : c ∈ ms <;> simp [uniContrib, hmg, hcm] <;> ring

theorem mapGetD_bigramPass (lg : K → K) {idx : JMap (List String)} (total : Nat)
    (hidx : ∀ t ms, mapGet idx t = some ms → ms.Nodup) (c : String) :
    ∀ (bgs : List String) (init : JMap K),
      mapGetD (bigramPass lg idx total init bgs) c 0 =
        mapGetD init c 0 + ((bgs.map (fun b => uniContrib lg idx total c b * 2)).sum)
  | [], init => by simp [bigramPass]
  | b :: bs, init => by
    rw [List.map_cons, List.sum_cons]
    cases hmg : mapGet idx b with
    | none =>
      have hstep : bigramPass lg idx total init (b :: bs)
          = bigramPass lg idx total init bs := by
        simp [bigramPass, hmg]
      rw [hstep, mapGetD_bigramPass lg total hidx c bs init]
      simp [uniContrib, hmg]
    | some ms =>
      have hstep : bigramPass lg idx total init (b :: bs)
          = bigramPass lg idx total
              (addWeightAll init ms (lg ((total : K) / (ms.length : K)) * 2)) bs := by
        simp [bigramPass, hmg]
      rw [hstep, mapGetD_bigramPass lg total hidx c bs _,
        mapGetD_addWeightAll _ _ _ (hidx b ms hmg)]
      by_cases hcm : c ∈ ms <;> simp [uniContrib, hmg, hcm] <;> ring

theorem isSome_mapGet_unigramPass (lg : K → K) {idx : JMap (List String)} (total : Nat) :
    ∀ (toks : List String) (init : JMap K) (c : String),
      (mapGet (unigramPass lg idx total init toks) c).isSome →
        (mapGet init c).isSome ∨ ∃ t ms, mapGet idx t = some ms ∧ c ∈ ms
  | [], init, c => by intro h; exact Or.inl h
  | t :: ts, init, c => by
    intro h
    cases hmg : mapGet idx t with
    | none =>
      rw [show unigramPass lg idx total init (t :: ts) = unigramPass lg idx total init ts by
        simp [unigramPass, hmg]] at h
      exact isSome_mapGet_unigramPass lg total ts init c h
    | some ms =>
      rw [show unigramPass lg idx total init (t :: ts)
          = unigramPass lg idx total
              (addWeightAll init ms (lg ((total : K) / (ms.length : K)))) ts by
        simp [unigramPass, hmg]] at h
      rcases isSome_mapGet_unigramPass lg total ts _ c h with h' | h'
      · rcases (isSome_mapGet_addWeightAll init ms _ c).mp h' with h'' | h''
        · exact Or.inl h''
        · exact Or.inr ⟨t, ms, hmg, h''⟩
      · exact Or.inr h'

theorem isSome_mapGet_bigramPass (lg : K → K) {idx : JMap (List String)} (total : Nat) :
    ∀ (bgs : List String) (init : JMap K) (c : String),
      (mapGet (bigramPass lg idx total init bgs) c).isSome →
        (mapGet init c).isSome ∨ ∃ t ms, mapGet idx t = some ms ∧ c ∈ ms
  | [], init, c => by intro h; exact Or.inl h
  | b :: bs, init, c => by
    intro h
    cases hmg : mapGet idx b with
    | none =>
      rw [show bigramPass lg idx total init (b :: bs) = bigramPass lg idx total init bs by
        simp [bigramPass, hmg]] at h
      exact isSome_mapGet_bigramPass lg total bs init c h
    | some ms =>
      rw [show bigramPass lg idx total init (b :: bs)
          = bigramPass lg idx total
              (addWeightAll init ms (lg ((total : K) / (ms.length : K)) * 2)) bs by
        simp [bigramPass, hmg]] at h
      rcases isSome_mapGet_bigramPass lg total bs _ c h with h' | h'
      · rcases (isSome_mapGet_addWeightAll init ms _ c).mp h' with h'' | h''
        · exact Or.inl h''
        · exact Or.inr ⟨b, ms, hmg, h''⟩
      · exact Or.inr h'

theorem isSome_mapGet_titlePass (ql : String) :
    ∀ (entries : List SocEntry) (init : JMap K) (c : String),
      (mapGet (titlePass ql init entries) c).isSome →
        (mapGet init c).isSome ∨ c ∈ entries.map SocEntry.code
  | [], init, c => by simp [titlePass]
  | f :: rest, init, c => by
    intro h
    by_cases hf : 0 < titleHits ql f
    · rw [show titlePass ql init (f :: rest)
          = titlePass ql
              (mapSet init f.code
                (mapGetD init f.code 0 +
                  ((titleHits ql f : K) / (((tokenize f.title).length : Nat) : K)) * 10)) rest by
        simp [titlePass, hf]] at h
      rcases isSome_mapGet_titlePass ql rest _ c h with h' | h'
      · rcases isSome_mapGet_mapSet _ _ h' with rfl | h''
        · exact Or.inr (by simp)
        · exact Or.inl h''
      · exact Or.inr (by simp [h'])
    · rw [show titlePass ql init (f :: rest) = titlePass ql init rest by
        simp [titlePass, hf]] at h
      rcases isSome_mapGet_titlePass ql rest init c h with h' | h'
      · exact Or.inl h'
      · exact Or.inr (by simp [h'])

theorem mapGet_titlePass_of_not_mem (ql : String) {c : String} :
    ∀ (entries : List SocEntry) (init : JMap K), c ∉ entries.map SocEntry.code →
      mapGet (titlePass ql init entries) c = mapGet init c
  | [], init, _ => by simp [titlePass]
  | f :: rest, init, h => by
    have hfc : c ≠ f.code := by
      intro hc
      exact h (by simp [hc])
    have hrest : c ∉ rest.map SocEntry.code := by
      intro hc
      exact h (by simp [hc])
    by_cases hf : 0 < titleHits ql f
    · rw [show titlePass ql init (f :: rest)
          = titlePass ql
              (mapSet init f.code
                (mapGetD init f.code 0 +
                  ((titleHits ql f : K) / (((tokenize f.title).length : Nat) : K)) * 10)) rest by
        simp [titlePass, hf]]
      rw [mapGet_titlePass_of_not_mem ql rest _ hrest, mapGet_mapSet_ne init _ hfc]
    · rw [show titlePass ql init (f :: rest) = titlePass ql init rest by
        simp [titlePass, hf]]
      exact mapGet_titlePass_of_not_mem ql rest init hrest

theorem titlePass_adds_bonus (ql : String) :
    ∀ {entries : List SocEntry}, (entries.map SocEntry.code).Nodup →
      ∀ {e : SocEntry}, e ∈ entries → 0 < titleHits ql e → ∀ (init : JMap K),
      mapGetD (titlePass ql init entries) e.code 0 =
        mapGetD init e.code 0 +
          ((titleHits ql e : K) / (((tokenize e.title).length : Nat) : K)) * 10
      ∧ (mapGet (titlePass ql init entries) e.code).isSome := by
  intro entries
  induction entries with
  | nil => intro _ e he; cases he
  | cons f rest ih =>
    intro hnd e he hk init
    rcases List.nodup_cons.mp hnd with ⟨hf0, hrest⟩
    rcases List.mem_cons.mp he with rfl | he'
    · have hne : e.code ∉ rest.map SocEntry.code := hf0
      rw [show titlePass ql init (e :: rest)
          = titlePass ql
              (mapSet init e.code
                (mapGetD init e.code 0 +
                  ((titleHits ql e : K) / (((tokenize e.title).length : Nat) : K)) * 10)) rest by
        simp [titlePass, hk]]
      simp only [mapGetD]
      rw [mapGet_titlePass_of_not_mem ql rest _ hne, mapGet_mapSet_self]
      exact ⟨rfl, rfl⟩
    · have hfe : e.code ≠ f.code := by
        intro hc
        exact hf0 (hc ▸ List.mem_map_of_mem SocEntry.code he')
      by_cases hf : 0 < titleHits ql f
      · rw [show titlePass ql init (f :: rest)
            = titlePass ql
                (mapSet init f.code
                  (mapGetD init f.code 0 +
                    ((titleHits ql f : K) / (((tokenize f.title).length : Nat) : K)) * 10)) rest by
          simp [titlePass, hf]]
        rcases ih hrest he' hk (mapSet init f.code
            (mapGetD init f.code 0 +
              ((titleHits ql f : K) / (((tokenize f.title).length : Nat) : K)) * 10)) with ⟨h1, h2⟩
        refine ⟨?_, h2⟩
        rw [h1, mapGetD, mapGet_mapSet_ne init _ hfe]
        rfl
      · rw [show titlePass ql init (f :: rest) = titlePass ql init rest by
          simp [titlePass, hf]]
        exact ih hrest he' hk init

end PassLemmas

theorem buildSocIndex_inv (entries : List SocEntry) :
    ∀ t ms, mapGet (buildSocIndex entries) t = some ms →
      ms.Nodup ∧ ∀ c ∈ ms, c ∈ entries.map SocEntry.code := by
  have hAdd : ∀ (idx : JMap (List String)) (token code0 : String),
      (∀ t ms, mapGet idx t = some ms → ms.Nodup ∧ ∀ c ∈ ms, c ∈ entries.map SocEntry.code) →
      code0 ∈ entries.map SocEntry.code →
      ∀ t ms, mapGet (indexAdd idx token code0) t = some ms →
        ms.Nodup ∧ ∀ c ∈ ms, c ∈ entries.map SocEntry.code := by
    intro idx token code0 hidx hc0 t ms hmg
    rw [indexAdd] at hmg
    rcases mapGet_mapSet_cases idx _ hmg with ⟨rfl, rfl⟩ | hmg'
    · have hbase : (mapGetD idx t ([] : List String)).Nodup ∧
          ∀ c ∈ mapGetD idx t ([] : List String), c ∈ entries.map SocEntry.code := by
        rw [mapGetD]
        cases hget : mapGet idx t with
        | none => simp
        | some s => simpa using hidx t s hget
      refine ⟨setAdd_nodup hbase.1 code0, ?_⟩
      intro c hc
      rcases mem_setAdd.mp hc with hc | rfl
      · exact hbase.2 c hc
      · exact hc0
    · exact hidx t ms hmg'
  have hFold : ∀ (toks : List String) (code0 : String) (idx : JMap (List String)),
      (∀ t ms, mapGet idx t = some ms → ms.Nodup ∧ ∀ c ∈ ms, c ∈ entries.map SocEntry.code) →
      code0 ∈ entries.map SocEntry.code →
      ∀ t ms, mapGet (toks.foldl (fun idx token => indexAdd idx token code0) idx) t = some ms →
        ms.Nodup ∧ ∀ c ∈ ms, c ∈ entries.map SocEntry.code := by
    intro toks
    induction toks with
    | nil => intro code0 idx hidx _; simpa using hidx
    | cons t0 ts ih =>
      intro code0 idx hidx hc0
      rw [List.foldl_cons]
      exact ih code0 _ (hAdd idx t0 code0 hidx hc0) hc0
  have hEntries : ∀ (socs : List SocEntry) (idx : JMap (List String)),
      (∀ soc ∈ socs, soc.code ∈ entries.map SocEntry.code) →
      (∀ t ms, mapGet idx t = some ms → ms.Nodup ∧ ∀ c ∈ ms, c ∈ entries.map SocEntry.code) →
      ∀ t ms,
        mapGet
          (socs.foldl
            (fun idx soc =>
              (entryTokenKeys soc).foldl (fun idx token => indexAdd idx token soc.code) idx)
            idx) t = some ms →
        ms.Nodup ∧ ∀ c ∈ ms, c ∈ entries.map SocEntry.code := by
    intro socs
    induction socs with
    | nil => intro idx _ hidx; simpa using hidx
    | cons f rest ih =>
      intro idx hmem hidx
      rw [List.foldl_cons]
      exact ih _ (fun soc hs => hmem soc (List.mem_cons_of_mem f hs))
        (hFold (entryTokenKeys f) f.code idx hidx (hmem f (List.mem_cons_self f rest)))
  refine hEntries entries [] (fun soc hs => List.mem_map_of_mem SocEntry.code hs) ?_
  intro t ms h
  simp [mapGet] at h

theorem tokenize_len_stop {s t : String} (h : t ∈ tokenize s) :
    3 ≤ t.length ∧ t ∉ STOP_WORDS := by
  rcases List.mem_filter.mp h with ⟨-, hcond⟩
  rw [Bool.and_eq_true] at hcond
  rcases hcond with ⟨h1, h2⟩
  have h1' : 2 < t.length := by simpa using h1
  refine ⟨by omega, ?_⟩
  · intro hmem
    rw [Bool.not_eq_true'] at h2
    have hc : STOP_WORDS.contains t = true := List.elem_iff.mpr hmem
    rw [hc] at h2
    cases h2

theorem splitRuns_chars : ∀ (cs acc : List Char),
    (∀ c ∈ cs, isWordCharJ c ∨ isSpaceJ c) → (∀ c ∈ acc, isWordCharJ c) →
    ∀ w ∈ splitRuns cs acc, ∀ ch ∈ w.data, isWordCharJ ch
  | [], acc => by
    intro _ hacc w hw ch hch
    rw [splitRuns] at hw
    split at hw
    · cases hw
    · rcases List.mem_singleton.mp hw with rfl
      exact hacc ch (List.mem_reverse.mp hch)
  | c :: cs, acc => by
    intro hcs hacc w hw ch hch
    rw [splitRuns] at hw
    by_cases hsp : isSpaceJ c
    · rw [if_pos hsp] at hw
      rcases List.mem_append.mp hw with hw | hw
      · split at hw
        · cases hw
        · rcases List.mem_singleton.mp hw with rfl
          exact hacc ch (List.mem_reverse.mp hch)
      · exact splitRuns_chars cs []
          (fun c0 hc0 => hcs c0 (List.mem_cons_of_mem c hc0)) (by intro c0 hc0; cases hc0)
          w hw ch hch
    · rw [if_neg hsp] at hw
      have hcw : isWordCharJ c := by
        rcases hcs c (List.mem_cons_self c cs) with h | h
        · exact h
        · exact absurd h hsp
      refine splitRuns_chars cs (c :: acc)
        (fun c0 hc0 => hcs c0 (List.mem_cons_of_mem c hc0)) ?_ w hw ch hch
      intro c0 hc0
      rcases List.mem_cons.mp hc0 with rfl | hc0
      · exact hcw
      · exact hacc c0 hc0

theorem tokenize_chars {s t : String} (h : t ∈ tokenize s) :
    ∀ ch ∈ t.data, isWordCharJ ch := by
  rcases List.mem_filter.mp h with ⟨hmem, -⟩
  refine splitRuns_chars _ [] ?_ (by intro c hc; cases hc) t hmem
  intro c hc
  rcases List.mem_map.mp hc with ⟨c0, -, rfl⟩
  by_cases h1 : isWordCharJ c0 = true ∨ isSpaceJ c0 = true
  · simpa [h1] using h1
  · simp only [if_neg h1]
    right
    rfl

theorem tokenize_data_ne_nil {s t : String} (h : t ∈ tokenize s) : t.data ≠ [] := by
  intro hd
  have h3 := (tokenize_len_stop h).1
  have : t.length = 0 := by
    show t.data.length = 0
    rw [hd]
    rfl
  omega

theorem includesChars_nil {needle : List Char} (h : needle ≠ []) :
    includesChars needle [] = false := by
  cases needle with
  | nil => exact absurd rfl h
  | cons c cs => rfl

theorem titleHits_empty_query (soc : SocEntry) : titleHits "" soc = 0 := by
  rw [titleHits, List.length_eq_zero, List.filter_eq_nil]
  intro t ht
  rw [jsIncludes]
  simp [includesChars_nil (tokenize_data_ne_nil ht)]

theorem tokenize_empty : tokenize "" = [] := rfl

theorem strLowerJ_empty : strLowerJ "" = "" := rfl

section EmptyQuery

variable {K : Type} [LinearOrderedField K]

theorem titlePass_empty_query (init : JMap K) :
    ∀ entries : List SocEntry, titlePass "" init entries = init := by
  intro entries
  induction entries generalizing init with
  | nil => rfl
  | cons f rest ih =>
    have hstep : titlePass "" init (f :: rest) = titlePass "" init rest := by
      simp [titlePass, titleHits_empty_query]
    rw [hstep]
    exact ih init

theorem filterBlank_nil : ∀ (l : List (Option String)), (∀ o ∈ l, o = none ∨ o = some "") →
    (l.filterMap id).filter (fun s => decide (s ≠ "")) = []
  | [], _ => rfl
  | o :: rest, h => by
    rcases h o (List.mem_cons_self o rest) with rfl | rfl
    · simpa using filterBlank_nil rest (fun o ho => h o (List.mem_cons_of_mem _ ho))
    · simpa using filterBlank_nil rest (fun o ho => h o (List.mem_cons_of_mem _ ho))

theorem queryTextOf_blank {pd : ProgramData}
    (h : ∀ o ∈ [pd.longName, pd.name, pd.type, pd.degreeDesignation, pd.college, pd.level],
      o = none ∨ o = some "") :
    queryTextOf pd = "" := by
  rw [queryTextOf, filterBlank_nil _ h]
  rfl

end EmptyQuery

section ResultLemmas

variable {K : Type} [LinearOrderedField K] [FloorRing K]

theorem mem_matchSocCodes {lg : K → K} {entries : List SocEntry} {pd : ProgramData}
    {topN : Int} {m : ScoredMatch K} (h : m ∈ matchSocCodes lg entries pd topN) :
    ∃ p ∈ accumScores lg entries pd,
      m = ⟨mapGet (buildSocByCode entries) p.1, roundTo2 p.2⟩ := by
  rw [matchSocCodes] at h
  rcases List.mem_map.mp h with ⟨p, hp, rfl⟩
  exact ⟨p, (sortByScoreDesc_perm _).subset ((jsSlice0_sublist _ _).subset hp), rfl⟩

theorem isSome_mapGet_accumScores {lg : K → K} {entries : List SocEntry} {pd : ProgramData}
    {c : String} (h : (mapGet (accumScores lg entries pd) c).isSome) :
    c ∈ entries.map SocEntry.code := by
  rcases isSome_mapGet_titlePass _ entries _ c h with h1 | h1
  · rw [uniBigramScores] at h1
    rcases isSome_mapGet_bigramPass _ _ _ _ _ h1 with h2 | ⟨t, ms, hmg, hc⟩
    · rcases isSome_mapGet_unigramPass _ _ _ _ _ h2 with h3 | ⟨t, ms, hmg, hc⟩
      · simp [mapGet] at h3
      · exact (buildSocIndex_inv entries t ms hmg).2 c hc
    · exact (buildSocIndex_inv entries t ms hmg).2 c hc
  · exact h1

end ResultLemmas

theorem mapGet_buildSocByCode_mem {entries : List SocEntry} {c : String} {e : SocEntry}
    (h : mapGet (buildSocByCode entries) c = some e) : e ∈ entries := by
  have hFold : ∀ (socs : List SocEntry) (m : JMap SocEntry),
      (∀ c e, mapGet m c = some e → e ∈ entries) → (∀ soc ∈ socs, soc ∈ entries) →
      ∀ c e, mapGet (socs.foldl (fun m soc => mapSet m soc.code soc) m) c = some e →
        e ∈ entries := by
    intro socs
    induction socs with
    | nil => intro m hm _; simpa using hm
    | cons f rest ih =>
      intro m hm hmem
      rw [List.foldl_cons]
      refine ih _ ?_ (fun soc hs => hmem soc (List.mem_cons_of_mem f hs))
      intro c e hmg
      rcases mapGet_mapSet_cases m _ hmg with ⟨rfl, rfl⟩ | hmg'
      · exact hmem _ (List.mem_cons_self _ _)
      · exact hm c e hmg'
  refine hFold entries [] ?_ (fun soc hs => hs) c e h
  intro c e h'
  simp [mapGet] at h'

theorem isSome_mapGet_buildSocByCode {entries : List SocEntry} {c : String}
    (h : c ∈ entries.map SocEntry.code) : (mapGet (buildSocByCode entries) c).isSome := by
  have hFold : ∀ (socs : List SocEntry) (m : JMap SocEntry),
      (c ∈ socs.map SocEntry.code ∨ (mapGet m c).isSome) →
      (mapGet (socs.foldl (fun m soc => mapSet m soc.code soc) m) c).isSome := by
    intro socs
    induction socs with
    | nil =>
      intro m hm
      rcases hm with hm | hm
      · simp at hm
      · exact hm
    | cons f rest ih =>
      intro m hm
      rw [List.foldl_cons]
      refine ih _ ?_
      rcases hm with hm | hm
      · rw [List.map_cons] at hm
        rcases List.mem_cons.mp hm with rfl | hm'
        · right
          rw [mapGet_mapSet_self]
          rfl
        · exact Or.inl hm'
      · exact Or.inr (isSome_mapGet_mapSet_of m f.code f hm)
  exact hFold entries [] (Or.inl h)

/-- Claim C1: for every score field, logarithm, taxonomy, query and topN,
the sequence returned by matchSocCodes is sorted by non-increasing
relevanceScore; moreover the ranked pair list it is sliced from is stable
with respect to the score accumulator: for every accumulated score value,
the pairs carrying that score appear in exactly the order their codes were
first inserted into the accumulator (unigram pass, then bigram pass, then
title-bonus pass over entries in taxonomy order). -/
theorem matchSocCodes_sorted_stable {K : Type} [LinearOrderedField K] [FloorRing K]
    (lg : K → K) (entries : List SocEntry) (pd : ProgramData) (topN : Int) :
    (matchSocCodes lg entries pd topN).Pairwise
      (fun a b => b.relevanceScore ≤ a.relevanceScore)
    ∧ ∀ s : K,
      (sortByScoreDesc (accumScores lg entries pd)).filter (fun q => decide (q.2 = s)) =
        (accumScores lg entries pd).filter (fun q => decide (q.2 = s)) := by
  constructor
  · rw [matchSocCodes, List.pairwise_map]
    have hs := sortByScoreDesc_sorted (accumScores lg entries pd)
    have ht := List.Pairwise.sublist
      (jsSlice0_sublist (sortByScoreDesc (accumScores lg entries pd)) topN) hs
    exact ht.imp (fun hab => roundTo2_mono hab)
  · exact sortByScoreDesc_filter_eq _

/-- Claim C2: every match returned by matchSocCodes carries an entry of the
original taxonomy collection — no fabricated codes; the code reached the
accumulator through the inverted index or the title-bonus loop, both of
which only ever mention codes of the entry collection. -/
theorem matchSocCodes_no_fabricated_codes {K : Type} [LinearOrderedField K] [FloorRing K]
    (lg : K → K) (entries : List SocEntry) (pd : ProgramData) (topN : Int)
    {m : ScoredMatch K} (hm : m ∈ matchSocCodes lg entries pd topN) :
    ∃ e, e ∈ entries ∧ m.entry? = some e := by
  rcases mem_matchSocCodes hm with ⟨p, hp, rfl⟩
  have hsome : (mapGet (accumScores lg entries pd) p.1).isSome := isSome_mapGet_of_mem hp
  have hcode : p.1 ∈ entries.map SocEntry.code := isSome_mapGet_accumScores hsome
  have hbc := isSome_mapGet_buildSocByCode hcode
  cases hget : mapGet (buildSocByCode entries) p.1 with
  | none => rw [hget] at hbc; cases hbc
  | some e => exact ⟨e, mapGet_buildSocByCode_mem hget, rfl⟩

/-- Witness for claim C2 at a concrete one-entry taxonomy and the query
that matches it. -/
theorem matchSocCodes_no_fabricated_codes_witness :
    ∃ e, e ∈ [entNurse] ∧
      (ScoredMatch.mk (some entNurse) (10 : ℚ)).entry? = some e := by
  have hr : matchSocCodes logLin [entNurse] pdNurse 10 = [⟨some entNurse, 10⟩] := by
    with_unfolding_all rfl
  exact matchSocCodes_no_fabricated_codes logLin [entNurse] pdNurse 10
    (by rw [hr]; exact List.mem_singleton_self _)

/-- Claim C3 (amended): the result length is at most topN for every
nonnegative topN, and topN = 0 yields the empty sequence; but a negative
topN does not: slice(0, topN) with negative topN drops the last -topN
ranked pairs, so the result has max(0, scoredCount + topN) elements. -/
theorem matchSocCodes_length_spec {K : Type} [LinearOrderedField K] [FloorRing K]
    (lg : K → K) (entries : List SocEntry) (pd : ProgramData) (topN : Int) :
    (0 ≤ topN → ((matchSocCodes lg entries pd topN).length : Int) ≤ topN)
    ∧ matchSocCodes lg entries pd 0 = []
    ∧ (topN < 0 → (matchSocCodes lg entries pd topN).length
        = (((accumScores lg entries pd).length : Int) + topN).toNat) := by
  refine ⟨?_, ?_, ?_⟩
  · intro h
    rw [matchSocCodes, List.length_map, jsSlice0_length_nonneg _ h]
    have h2 := Int.toNat_of_nonneg h
    omega
  · rw [matchSocCodes]
    rw [show jsSlice0 (sortByScoreDesc (accumScores lg entries pd)) 0 = [] by
      rw [jsSlice0, if_pos le_rfl]; rfl]
    rfl
  · intro h
    rw [matchSocCodes, List.length_map, jsSlice0_length_neg _ h,
      (sortByScoreDesc_perm (accumScores lg entries pd)).length_eq]

/-- Counterexample to claim C3 as stated: topN = -1 is not positive, yet
the matcher returns a non-empty sequence, because slice(0, -1) drops only
the last ranked pair.  The result length does not depend on the logarithm,
so the rational stand-in refutes the claim for the running program too. -/
theorem matchSocCodes_negative_topN_counterexample :
    ((-1 : Int) ≤ 0) ∧ matchSocCodes logLin [entXyz, entAbc] pdXyzAbc (-1) ≠ [] := by
  refine ⟨by decide, ?_⟩
  have hr : matchSocCodes logLin [entXyz, entAbc] pdXyzAbc (-1) = [⟨some entXyz, 11⟩] := by
    with_unfolding_all rfl
  rw [hr]
  simp

/-- Claim C4 (amended): for nonnegative topN the matcher returns exactly
the first min(topN, scoredCount) ranked pairs of the score accumulator —
it never pads with codes that were never scored — but entries whose
accumulated score is zero (a matched token occurring in every entry has
weight lg of one) are not excluded. -/
theorem matchSocCodes_returns_scored_only {K : Type} [LinearOrderedField K] [FloorRing K]
    (lg : K → K) (entries : List SocEntry) (pd : ProgramData) (topN : Int) (h : 0 ≤ topN) :
    (matchSocCodes lg entries pd topN).length
      = min topN.toNat (accumScores lg entries pd).length
    ∧ ∀ m ∈ matchSocCodes lg entries pd topN,
        ∃ p ∈ accumScores lg entries pd,
          m = ⟨mapGet (buildSocByCode entries) p.1, roundTo2 p.2⟩ := by
  constructor
  · rw [matchSocCodes, List.length_map, jsSlice0_length_nonneg _ h,
      (sortByScoreDesc_perm (accumScores lg entries pd)).length_eq]
  · intro m hm
    exact mem_matchSocCodes hm

/-- Witness for the amended claim C4 at a concrete taxonomy and query. -/
theorem matchSocCodes_returns_scored_only_witness :
    (matchSocCodes logLin [entNurse] pdNurse 10).length
      = min (10 : Int).toNat (accumScores logLin [entNurse] pdNurse).length
    ∧ ∃ p ∈ accumScores logLin [entNurse] pdNurse,
        (⟨some entNurse, (10 : ℚ)⟩ : ScoredMatch ℚ)
          = ⟨mapGet (buildSocByCode [entNurse]) p.1, roundTo2 p.2⟩ := by
  refine ⟨(matchSocCodes_returns_scored_only logLin [entNurse] pdNurse 10 (by decide)).1, ?_⟩
  refine (matchSocCodes_returns_scored_only logLin [entNurse] pdNurse 10 (by decide)).2 _ ?_
  have hr : matchSocCodes logLin [entNurse] pdNurse 10 = [⟨some entNurse, 10⟩] := by
    with_unfolding_all rfl
  rw [hr]
  exact List.mem_singleton_self _

/-- Counterexample to claim C4 as stated: both entries reach the
accumulator only through the group token occurring in every entry, whose
weight is lg(2/2) = lg 1 — zero for the natural logarithm exactly as for
the rational stand-in — and both are returned with relevanceScore 0:
zero-score entries are not excluded from the result. -/
theorem matchSocCodes_zero_score_counterexample :
    (matchSocCodes logLin [entHealthA, entHealthB] pdHealthcare 10).map
        (fun m => m.relevanceScore) = [0, 0]
    ∧ (matchSocCodes logLin [entHealthA, entHealthB] pdHealthcare 10).length = 2 := by
  have hr : matchSocCodes logLin [entHealthA, entHealthB] pdHealthcare 10
      = [⟨some entHealthA, 0⟩, ⟨some entHealthB, 0⟩] := by
    with_unfolding_all rfl
  rw [hr]
  exact ⟨rfl, rfl⟩

/-- Claim C5: an entry with k nonzero title-token hits in the lowercased
query text receives exactly (k / totalTitleTokens) * 10 on top of the score
it had after the unigram and bigram passes, and the bonus alone puts the
code into the score mapping: the final lookup of its code succeeds even if
the index passes never scored it. -/
theorem matchSocCodes_title_bonus {K : Type} [LinearOrderedField K]
    (lg : K → K) {entries : List SocEntry} (pd : ProgramData)
    (hnd : (entries.map SocEntry.code).Nodup) {e : SocEntry} (he : e ∈ entries)
    (hk : 0 < titleHits (strLowerJ (queryTextOf pd)) e) :
    mapGetD (accumScores lg entries pd) e.code 0
      = mapGetD (uniBigramScores lg entries pd) e.code 0
        + ((titleHits (strLowerJ (queryTextOf pd)) e : K)
            / (((tokenize e.title).length : Nat) : K)) * 10
    ∧ (mapGet (accumScores lg entries pd) e.code).isSome := by
  rw [accumScores]
  exact titlePass_adds_bonus _ hnd he hk _

/-- Witness for claim C5: the query equal to the registered-nurses title
gives two hits out of two title tokens, a bonus of 10. -/
theorem matchSocCodes_title_bonus_witness :
    mapGetD (accumScores logLin [entNurse] pdNurse) entNurse.code 0
      = mapGetD (uniBigramScores logLin [entNurse] pdNurse) entNurse.code 0
        + ((titleHits (strLowerJ (queryTextOf pdNurse)) entNurse : ℚ)
            / (((tokenize entNurse.title).length : Nat) : ℚ)) * 10
    ∧ (mapGet (accumScores logLin [entNurse] pdNurse) entNurse.code).isSome :=
  matchSocCodes_title_bonus logLin pdNurse (by decide) (List.mem_singleton_self _) (by decide)

/-- Claim C6: the score accumulated by the unigram and bigram passes has a
closed form: each query token present as an index key contributes the
weight lg of total entry count over its document frequency to every code of
its set, and each query bigram contributes the identically computed weight
doubled.  Instantiated at the natural logarithm this is the
ln(totalEntryCount / df) weighting of the claim, which is zero for a token
matching every entry and ln(totalEntryCount) for a token matching exactly
one. -/
theorem uniBigramScores_closed_form {K : Type} [LinearOrderedField K]
    (lg : K → K) (entries : List SocEntry) (pd : ProgramData) (c : String) :
    mapGetD (uniBigramScores lg entries pd) c 0
      = (((tokenize (queryTextOf pd)).map
            (uniContrib lg (buildSocIndex entries) entries.length c)).sum)
        + (((bigramsOf (tokenize (queryTextOf pd))).map
            (fun b => uniContrib lg (buildSocIndex entries) entries.length c b * 2)).sum) := by
  have hidx : ∀ t ms, mapGet (buildSocIndex entries) t = some ms → ms.Nodup :=
    fun t ms h => (buildSocIndex_inv entries t ms h).1
  rw [uniBigramScores, mapGetD_bigramPass lg entries.length hidx c _ _,
    mapGetD_unigramPass lg entries.length hidx c _ _]
  rw [show mapGetD ([] : JMap K) c 0 = 0 from rfl, zero_add]

/-- Claim C7: the tokenizer is a pure function whose output tokens are
lowercased a-z0-9 words of length at least three that are not stop words:
no output token has length below three, none is a stop word, and every
character of every output token is a word character. -/
theorem tokenize_spec (s : String) {t : String} (h : t ∈ tokenize s) :
    3 ≤ t.length ∧ t ∉ STOP_WORDS ∧ ∀ ch ∈ t.data, isWordCharJ ch :=
  ⟨(tokenize_len_stop h).1, (tokenize_len_stop h).2, tokenize_chars h⟩

/-- Witness for claim C7 on a concrete mixed input. -/
theorem tokenize_spec_witness :
    3 ≤ ("hello" : String).length ∧ ("hello" : String) ∉ STOP_WORDS
    ∧ ∀ ch ∈ ("hello" : String).data, isWordCharJ ch :=
  tokenize_spec "Hello, the WORLD-99 ab" (by decide)

/-- Claim C8: when the AI strategy is unavailable (no key configured) or
its call fails (exception thrown, or response text without a JSON array),
the match endpoint still answers successfully with the unchanged local
result list and a null AI result — no exception reaches the caller. -/
theorem socMatchHandler_ai_fallback {K : Type} [LinearOrderedField K] [FloorRing K]
    (lg : K → K) (entries : List SocEntry) (hasKey : Bool) (pd : ProgramData)
    (topN : Int) (useAI : Bool) (callResult : AICallResult)
    (hfail : hasKey = false ∨ callResult = .thrown ∨ callResult = .noJsonArray) :
    socMatchHandler lg entries hasKey (some pd) topN useAI callResult
      = Except.ok
          { programName := jsOrOpt pd.longName pd.name
            programCode := pd.code
            programCipCode := pd.cipCode
            localMatches := matchSocCodes lg entries pd topN
            aiMatches := none
            aiAvailable := hasKey } := by
  rcases hfail with rfl | rfl | rfl <;> simp [socMatchHandler, matchSocCodesWithAI]

/-- Witness for claim C8 with the key absent and an AI request made. -/
theorem socMatchHandler_ai_fallback_witness :
    socMatchHandler logLin [entNurse] false (some pdNurse) 10 true (.parsed [])
      = Except.ok
          { programName := jsOrOpt pdNurse.longName pdNurse.name
            programCode := pdNurse.code
            programCipCode := pdNurse.cipCode
            localMatches := matchSocCodes logLin [entNurse] pdNurse 10
            aiMatches := none
            aiAvailable := false } :=
  socMatchHandler_ai_fallback logLin [entNurse] false pdNurse 10 true (.parsed [])
    (Or.inl rfl)

/-- Claim C9 (amended): a successfully parsed AI triple list is enriched
elementwise; a triple whose code exists in the local map is flagged
verified = true and takes the local title and group labels, except that an
empty local title falls back to the external one (the or-operator of the
source treats the empty string as absent); a triple whose code is absent
keeps the external title with verified = false and empty group labels. -/
theorem aiEnrichment_spec (byCode : JMap SocEntry) (ms : List AITriple) (m : AITriple) :
    matchSocCodesWithAI true byCode (.parsed ms) = some (ms.map (enrichAIMatch byCode))
    ∧ (∀ e, mapGet byCode m.code = some e →
        enrichAIMatch byCode m =
          { code := m.code
            title := if e.title = "" then m.title else e.title
            majorGroup := jsOrStr e.majorGroup ""
            minorGroup := jsOrStr e.minorGroup ""
            broadGroup := jsOrStr e.broadGroup ""
            reason := m.reason
            source := "ai"
            verified := true })
    ∧ (mapGet byCode m.code = none →
        enrichAIMatch byCode m =
          { code := m.code, title := m.title, majorGroup := "", minorGroup := ""
            broadGroup := "", reason := m.reason, source := "ai", verified := false }) := by
  refine ⟨rfl, ?_, ?_⟩
  · intro e he
    simp [enrichAIMatch, he, jsOrStr]
  · intro he
    simp [enrichAIMatch, he, jsOrStr]

/-- Witness for the amended claim C9: a found code is enriched with the
local title and verified = true. -/
theorem aiEnrichment_spec_witness :
    matchSocCodesWithAI true (buildSocByCode [entNurse])
        (.parsed [⟨"29-1141", "RN", "match"⟩])
      = some ([⟨"29-1141", "RN", "match"⟩].map (enrichAIMatch (buildSocByCode [entNurse])))
    ∧ enrichAIMatch (buildSocByCode [entNurse]) ⟨"29-1141", "RN", "match"⟩
        = { code := "29-1141"
            title := if entNurse.title = "" then "RN" else entNurse.title
            majorGroup := jsOrStr entNurse.majorGroup ""
            minorGroup := jsOrStr entNurse.minorGroup ""
            broadGroup := jsOrStr entNurse.broadGroup ""
            reason := "match"
            source := "ai"
            verified := true } := by
  refine ⟨(aiEnrichment_spec (buildSocByCode [entNurse]) [⟨"29-1141", "RN", "match"⟩]
    ⟨"29-1141", "RN", "match"⟩).1, ?_⟩
  exact (aiEnrichment_spec (buildSocByCode [entNurse]) [] ⟨"29-1141", "RN", "match"⟩).2.1
    entNurse (by decide)

/-- Counterexample to claim C9 as stated: the code exists in the local map
(the result is verified), yet the external title is kept, because the
local title is the empty string and the or-fallback of the source treats it
as absent. -/
theorem aiEnrichment_empty_title_counterexample :
    (matchSocCodesWithAI true (buildSocByCode [⟨"11-1111", "", none, none, none⟩])
        (.parsed [⟨"11-1111", "External Title", "r"⟩])
      = some [⟨"11-1111", "External Title", "", "", "", "r", "ai", true⟩])
    ∧ (mapGet (buildSocByCode [⟨"11-1111", "", none, none, none⟩]) "11-1111").isSome = true
    ∧ ("External Title" : String) ≠ "" :=
  ⟨by decide, by decide, by decide⟩

/-- Claim C10: when all six query fields are absent or empty, the query
text is empty, so there are no tokens or bigrams, no nonempty title token
is a substring of the empty text, and the matcher returns the empty
sequence, for every taxonomy and every topN. -/
theorem matchSocCodes_empty_query {K : Type} [LinearOrderedField K] [FloorRing K]
    (lg : K → K) (entries : List SocEntry) (topN : Int) (pd : ProgramData)
    (h : ∀ o ∈ [pd.longName, pd.name, pd.type, pd.degreeDesignation, pd.college, pd.level],
      o = none ∨ o = some "") :
    matchSocCodes lg entries pd topN = [] := by
  have hq : queryTextOf pd = "" := queryTextOf_blank h
  have hacc : accumScores lg entries pd = [] := by
    rw [accumScores, uniBigramScores, hq, strLowerJ_empty, tokenize_empty]
    rw [show bigramsOf [] = [] from rfl]
    rw [show unigramPass lg (buildSocIndex entries) entries.length ([] : JMap K) [] = []
      from rfl]
    rw [show bigramPass lg (buildSocIndex entries) entries.length ([] : JMap K) [] = []
      from rfl]
    exact titlePass_empty_query [] entries
  rw [matchSocCodes, hacc]
  rw [show sortByScoreDesc ([] : List (String × K)) = [] from rfl]
  rw [show jsSlice0 ([] : List (String × K)) topN = [] by rw [jsSlice0]; split <;> exact List.take_nil]
  rfl

/-- Witness for claim C10 at a fully blank query record. -/
theorem matchSocCodes_empty_query_witness :
    matchSocCodes logLin [entNurse] pdBlank 7 = [] :=
  matchSocCodes_empty_query logLin [entNurse] 7 pdBlank (by decide)
